import Mathlib

/-!
# A verification model of the gophertags fuzzy message detection scheme

This file embeds the Go package `gophertags` (files `tags.go`) in Lean.

The Ristretto255 group of prime order q is modelled by its discrete-logarithm
representation: the element a·B (B the standard base point) is represented by
the scalar a : ZMod q, so the identity is 0, ScalarBaseMult s is s·1,
ScalarMult of s against an element a is s*a, and MultiScalarMult is the sum of
the pairwise products.  The external primitives that the package calls but does
not implement — SHA3-256, SHA3-512 with reduction to a scalar, and the
canonical 32-byte element encoding — are parameters, collected in `Oracles`.
Randomness (crypto/rand via FromUniformBytes) is passed in explicitly: a
scalar stream `coins` for NewSecretKey and the two scalars r, z for
GenerateFlag; FromUniformBytes reduces 64 uniform bytes mod q and is
surjective, so every scalar value is a reachable outcome of the coins.

The flag's ciphertext bit-vector, a `math/big.Int` in the source, is modelled
as ℕ with big.Int's Bit/SetBit/BitLen/Bits translated below (64-bit words,
i.e. bits.UintSize = 64).  Go runtime panics on invalid sizes or indexes
(negative `make` length, out-of-range slice index) are modelled by `Option`
in the `...Checked` wrappers.
-/

namespace Gophertags

/-! ## big.Int as a bit vector -/

/-- Fuel-based bit length: `bitLenAux fuel m` counts the binary digits of `m`,
correct whenever `m ≤ fuel`. -/
def bitLenAux : ℕ → ℕ → ℕ
  | 0, _ => 0
  | fuel + 1, m => if m = 0 then 0 else bitLenAux fuel (m / 2) + 1

/-- `big.Int.BitLen()`: the length of the absolute value in bits, 0 for 0. -/
def bitLen (n : ℕ) : ℕ := bitLenAux n n

/-- `big.Int.SetBit(x, i, b)`: sets bit `i` of `x` to `b`. -/
def setBit (x i : ℕ) (b : Bool) : ℕ :=
  if b then x ||| 2 ^ i else x - (x &&& 2 ^ i)

/-- `big.Int.Bits()`: the little-endian words of the value, with no trailing
zero word, on a platform where `bits.UintSize = 64`. -/
def natWords (n : ℕ) : List ℕ :=
  (List.range ((bitLen n + 63) / 64)).map fun i => n / 2 ^ (64 * i) % 2 ^ 64

/-- The capacity the source requests for the packed byte slice
(`make([]byte, 0, bitVec.BitLen()+7/8)`).  Integer division binds tighter
than addition, so `7/8 = 0` and the capacity is `BitLen()` itself rather
than the minimal byte count `(BitLen()+7)/8`. -/
def packCap (c : ℕ) : ℕ := bitLen c + 7 / 8

/-- The byte-packing loop of `hashGVecToScalar`: for each 64-bit word, append
its bytes little-endian, 8 per word, stopping (for good) once the slice length
has reached the requested capacity.  `byte(word)` after `j` shifts by 8 is
`word / 2^(8*j) % 256`. -/
def packBytesLoop (cap : ℕ) (ws : List ℕ) : List ℕ :=
  ws.foldl
    (fun acc w =>
      (List.range 8).foldl
        (fun acc2 j => if cap ≤ acc2.length then acc2 else acc2 ++ [w / 2 ^ (8 * j) % 256])
        acc)
    []

/-- The byte string that the source packs the bit vector `c` into before
hashing. -/
def packBytes (c : ℕ) : List ℕ := packBytesLoop (packCap c) (natWords c)

/-! ## The group in discrete-log representation, and the hash oracles -/

/-- The identity element (`r255.NewElement()`). -/
def identityElem (q : ℕ) : ZMod q := 0

/-- The standard base point B (`r255.NewElement().Base()`), of discrete log 1. -/
def basePoint (q : ℕ) : ZMod q := 1

/-- `ScalarBaseMult(s)` = s·B. -/
def scalarBaseMult {q : ℕ} (s : ZMod q) : ZMod q := s * basePoint q

/-- `ScalarMult(s, e)` = s·e. -/
def scalarMult {q : ℕ} (s e : ZMod q) : ZMod q := s * e

/-- `MultiScalarMult(scalars, elements)` = Σ sᵢ·eᵢ. -/
def multiScalarMult {q : ℕ} (ss es : List (ZMod q)) : ZMod q :=
  (List.zipWith (fun s e => s * e) ss es).sum

/-- `Scalar.Invert(s)`: the multiplicative inverse in the scalar field,
which ristretto255 computes as s^(ℓ−2) by an addition chain (Fermat); it
maps 0 to 0. -/
def scalarInvert {q : ℕ} (s : ZMod q) : ZMod q := s ^ (q - 2)

/-- The primitives external to the package: SHA3-256 restricted to the least
significant bit of byte 0 of the digest, SHA3-512 composed with
`FromUniformBytes` reduction to a scalar, and the canonical 32-byte element
encoding.  Bytes are modelled as naturals. -/
structure Oracles (q : ℕ) where
  sha256bit : List ℕ → Bool
  sha512scalar : List ℕ → ZMod q
  enc : ZMod q → List ℕ

/-- `Element.Encode(b)` of the ristretto255 library APPENDS the canonical
encoding of the element to the buffer `b` it is handed, and returns the
result. -/
def encodeAppend {q : ℕ} (O : Oracles q) (b : List ℕ) (e : ZMod q) : List ℕ :=
  b ++ O.enc e

/-- `hashG3ToBit(rB, rH, zB)`: H : G³ → {0,1}, the LSB of byte 0 of the
SHA3-256 digest of the three concatenated canonical encodings. -/
def hashG3ToBit {q : ℕ} (O : Oracles q) (rB rH zB : ZMod q) : Bool :=
  O.sha256bit (O.enc rB ++ O.enc rH ++ O.enc zB)

/-- `hashGVecToScalar(u, bitVec)`: pack the bit vector into bytes, then hash
`u.Encode(byteRepr)` — the packed bytes with the encoding of `u` appended —
through SHA3-512 and reduce to a scalar. -/
def hashGVecToScalar {q : ℕ} (O : Oracles q) (u : ZMod q) (bitVec : ℕ) : ZMod q :=
  O.sha512scalar (encodeAppend O (packBytes bitVec) u)

/-- Modelled from the spec: §4.1 states that the hash input is the 32-byte
canonical encoding of u concatenated with (followed by) the packed bit-vector.
Stated here verbatim so that it can be compared with the source's
`hashGVecToScalar`. -/
def hashGVecToScalarUFirst {q : ℕ} (O : Oracles q) (u : ZMod q) (bitVec : ℕ) : ZMod q :=
  O.sha512scalar (O.enc u ++ packBytes bitVec)

/-- Modelled from the spec, as amended: the hash input is the packed
bit-vector followed by the 32-byte canonical encoding of u. -/
def hashGVecToScalarCFirst {q : ℕ} (O : Oracles q) (u : ZMod q) (bitVec : ℕ) : ZMod q :=
  O.sha512scalar (packBytes bitVec ++ O.enc u)

/-! ## Key and flag types -/

/-- The recipient's secret key: γ secret scalars and the γ matching public
points pk[i] = sk[i]·B. -/
structure SecretKey (q : ℕ) where
  sk : List (ZMod q)
  pk : List (ZMod q)

/-- The public key handed to senders: the vector of points Hᵢ. -/
structure PublicKey (q : ℕ) where
  internal : List (ZMod q)

/-- The detection key handed to the mailbox: the first n secret scalars. -/
structure DetectionKey (q : ℕ) where
  internal : List (ZMod q)

/-- A flag (u, y, c): commitment element, consistency scalar, and the
ciphertext bit vector (a big.Int in the source). -/
structure Flag (q : ℕ) where
  u : ZMod q
  y : ZMod q
  ciphertexts : ℕ

/-! ## Operations -/

/-- `NewSecretKey(gamma)`: draw γ uniform scalars (the coin stream stands for
`FromUniformBytes` of 64 fresh random bytes per index) and their base-point
multiples. -/
def NewSecretKey {q : ℕ} (coins : ℕ → ZMod q) (gamma : ℕ) : SecretKey q :=
  { sk := (List.range gamma).map coins
    pk := (List.range gamma).map fun i => scalarBaseMult (coins i) }

/-- `NewSecretKey` with the Go runtime behaviour at the boundary:
`make([]T, gamma)` panics for negative `gamma` (modelled as `none`); any
`gamma ≥ 0` — including 0 — completes normally. -/
def NewSecretKeyChecked {q : ℕ} (coins : ℕ → ZMod q) (gamma : ℤ) : Option (SecretKey q) :=
  if gamma < 0 then none else some (NewSecretKey coins gamma.toNat)

/-- `sk.PublicKey()`: an independent value copy of the pk vector (the
encode-then-decode dance of the source is the identity on elements). -/
def SecretKey.PublicKey {q : ℕ} (key : SecretKey q) : PublicKey q :=
  ⟨key.pk⟩

/-- `sk.ExtractDetectionKey(n)`: a copy of the first n secret scalars. -/
def SecretKey.ExtractDetectionKey {q : ℕ} (key : SecretKey q) (n : ℕ) : DetectionKey q :=
  ⟨key.sk.take n⟩

/-- `ExtractDetectionKey` with the Go runtime behaviour at the boundary:
`make([]T, n)` panics for n < 0 and the loop indexes `sk.sk[i]` out of range
for n > γ (both modelled as `none`). -/
def SecretKey.ExtractDetectionKeyChecked {q : ℕ} (key : SecretKey q) (n : ℤ) :
    Option (DetectionKey q) :=
  if n < 0 ∨ (key.sk.length : ℤ) < n then none
  else some (key.ExtractDetectionKey n.toNat)

/-- `pk.GenerateFlag()` with the two sampled scalars r, z made explicit.
u = r·B, w = z·B; bit i of the ciphertext vector is
`hashG3ToBit(u, r·Hᵢ, w) ^ 0x01`; m hashes (u, c); y = r⁻¹·(z − m). -/
def PublicKey.GenerateFlag {q : ℕ} (O : Oracles q) (pk : PublicKey q)
    (r z : ZMod q) : Flag q :=
  let u := scalarBaseMult r
  let w := scalarBaseMult z
  let bitVec := pk.internal.enum.foldl
    (fun bv iH => setBit bv iH.1 (!hashG3ToBit O u (scalarMult r iH.2) w)) 0
  let m := hashGVecToScalar O u bitVec
  let y := scalarInvert r * (z - m)
  ⟨u, y, bitVec⟩

/-- `dk.Test(f)`: reject the universal tag (u the identity or y zero); then
recompute m, form w = m·B + y·u by multi-scalar multiplication, and AND
together, over every slot i, the bit `hashG3ToBit(u, xᵢ·u, w) ^ c.Bit(i)`.
The source keeps `pass` as a uint in {0,1} and returns `pass == 0x01`;
the accumulator is a Bool here. -/
def DetectionKey.Test {q : ℕ} (O : Oracles q) (dk : DetectionKey q) (f : Flag q) : Bool :=
  if f.u = identityElem q ∨ f.y = 0 then false
  else
    let m := hashGVecToScalar O f.u f.ciphertexts
    let w := multiScalarMult [m, f.y] [basePoint q, f.u]
    dk.internal.enum.foldl
      (fun pass ix =>
        pass && (hashG3ToBit O f.u (scalarMult ix.2 f.u) w ^^ f.ciphertexts.testBit ix.1))
      true

/-- The per-slot bits `b_i = hashG3ToBit(u, xᵢ·u, w) ^ c.Bit(i)` that the
loop of `Test` ANDs together, in iteration order: one per scalar of the
detection key. -/
def DetectionKey.TestSlotBits {q : ℕ} (O : Oracles q) (dk : DetectionKey q) (f : Flag q) :
    List Bool :=
  dk.internal.enum.map fun ix =>
    hashG3ToBit O f.u (scalarMult ix.2 f.u)
        (multiScalarMult [hashGVecToScalar O f.u f.ciphertexts, f.y] [basePoint q, f.u])
      ^^ f.ciphertexts.testBit ix.1

/-- The bit-vector building fold of `GenerateFlag`, abstracted over the
per-slot bit function: fold `SetBit` over the slots enumerated from `k`. -/
def setBitFold {α : Type} (g : ℕ → α → Bool) (k : ℕ) (l : List α) (acc : ℕ) : ℕ :=
  (List.enumFrom k l).foldl (fun bv ia => setBit bv ia.1 (g ia.1 ia.2)) acc

/-! ## Concrete instances used to evaluate the scheme on explicit inputs

The group order is instantiated at the toy prime 5 and the three external
primitives at small computable functions; the construction itself never
depends on which functions they are. -/

instance factPrimeFive : Fact (Nat.Prime 5) := ⟨by norm_num⟩

/-- A toy canonical encoding: the one-byte value of the discrete log. -/
def toyEnc : ZMod 5 → List ℕ := fun x => [x.val]

/-- Hash-to-bit constantly false. -/
def oracleA : Oracles 5 := ⟨fun _ => false, fun _ => 0, toyEnc⟩

/-- Hash-to-bit constantly true. -/
def oracleB : Oracles 5 := ⟨fun _ => true, fun _ => 0, toyEnc⟩

/-- A hash-to-bit oracle answering true exactly on the encoded triple
(2, 4, 2). -/
def oracleC : Oracles 5 := ⟨fun bs => bs == [2, 4, 2], fun _ => 0, toyEnc⟩

/-- An oracle whose hash-to-scalar distinguishes the two concatenation orders
of the element encoding (here x ↦ [x.val + 2]) and the packed bit-vector. -/
def oracleD : Oracles 5 :=
  ⟨fun _ => false, fun bs => if bs = [1, 3] then 1 else 3, fun x => [x.val + 2]⟩

/-- A constant coin stream. -/
def coinsOne : ℕ → ZMod 5 := fun _ => 1

/-- A γ = 1 secret key drawn from the constant coin stream. -/
def skOne : SecretKey 5 := NewSecretKey coinsOne 1

/-- A γ = 2 secret key with both scalars 1. -/
def skTwo : SecretKey 5 := ⟨[1, 1], [1, 1]⟩

/-- A one-scalar detection key holding the scalar 2. -/
def dkTwo : DetectionKey 5 := ⟨[2]⟩

/-- A one-scalar detection key holding the scalar 1. -/
def dkOne : DetectionKey 5 := ⟨[1]⟩

/-- The flag (2·B, 1, empty bit-vector). -/
def flagC2 : Flag 5 := ⟨2, 1, 0⟩

/-- The flag (1·B, 1, empty bit-vector). -/
def flagUnit : Flag 5 := ⟨1, 1, 0⟩

/-- The universal tag with the all-zero bit-vector (identity u, zero y). -/
def zeroFlag : Flag 5 := ⟨0, 0, 0⟩

/-- The universal tag with 24 one bits. -/
def onesFlag : Flag 5 := ⟨0, 0, 2 ^ 24 - 1⟩

/-! ## Arithmetic of the bit-vector model -/

theorem bitLenAux_lt_two_pow : ∀ fuel m : ℕ, m ≤ fuel → m < 2 ^ bitLenAux fuel m := by
  intro fuel
  induction fuel with
  | zero =>
    intro m hm
    have h0 : m = 0 := Nat.le_zero.mp hm
    subst h0
    simp [bitLenAux]
  | succ f ih =>
    intro m hm
    by_cases h0 : m = 0
    · subst h0
      simp [bitLenAux]
    · have hstep : bitLenAux (f + 1) m = bitLenAux f (m / 2) + 1 := by
        simp [bitLenAux, h0]
      have hle : m / 2 ≤ f := by omega
      have hrec := ih (m / 2) hle
      have hpow : (2 : ℕ) ^ (bitLenAux f (m / 2) + 1) = 2 ^ bitLenAux f (m / 2) * 2 :=
        pow_succ 2 _
      rw [hstep]
      omega

theorem lt_two_pow_bitLen (n : ℕ) : n < 2 ^ bitLen n :=
  bitLenAux_lt_two_pow n n le_rfl

theorem testBit_eq_false_of_bitLen_le {c i : ℕ} (h : bitLen c ≤ i) : c.testBit i = false := by
  apply Nat.testBit_eq_false_of_lt
  exact lt_of_lt_of_le (lt_two_pow_bitLen c) (Nat.pow_le_pow_right (by omega) h)

theorem setBit_lt_two_pow {x k : ℕ} (b : Bool) (h : x < 2 ^ k) :
    setBit x k b < 2 ^ (k + 1) := by
  have hone : 1 ≤ (2 : ℕ) ^ k := Nat.one_le_two_pow
  have hk : (2 : ℕ) ^ k < 2 ^ (k + 1) := by
    have := pow_succ 2 k
    omega
  cases b with
  | true =>
    simp only [setBit, if_pos]
    exact Nat.or_lt_two_pow (h.trans hk) hk
  | false =>
    simp only [setBit, Bool.false_eq_true, if_neg]
    exact lt_of_le_of_lt (Nat.sub_le _ _) (h.trans hk)

theorem testBit_setBit_self {x k : ℕ} (b : Bool) (h : x < 2 ^ k) :
    (setBit x k b).testBit k = b := by
  have hx : x.testBit k = false := Nat.testBit_eq_false_of_lt h
  cases b with
  | true => simp [setBit, Nat.testBit_lor, hx, Nat.testBit_two_pow_self]
  | false =>
    have hand : x &&& 2 ^ k = 0 := by
      rw [Nat.and_two_pow, hx]
      simp
    simp [setBit, hand, hx]

theorem testBit_setBit_of_lt {x k j : ℕ} (b : Bool) (h : x < 2 ^ k) (hj : j < k) :
    (setBit x k b).testBit j = x.testBit j := by
  have hx : x.testBit k = false := Nat.testBit_eq_false_of_lt h
  cases b with
  | true =>
    simp [setBit, Nat.testBit_lor, Nat.testBit_two_pow_of_ne (Nat.ne_of_gt hj)]
  | false =>
    have hand : x &&& 2 ^ k = 0 := by
      rw [Nat.and_two_pow, hx]
      simp
    simp [setBit, hand]

theorem setBitFold_spec {α : Type} (g : ℕ → α → Bool) :
    ∀ (l : List α) (k acc : ℕ), acc < 2 ^ k →
      setBitFold g k l acc < 2 ^ (k + l.length) ∧
      (∀ j, j < k → (setBitFold g k l acc).testBit j = acc.testBit j) ∧
      (∀ i (h : i < l.length),
        (setBitFold g k l acc).testBit (k + i) = g (k + i) (l.get ⟨i, h⟩)) := by
  intro l
  induction l with
  | nil =>
    intro k acc hacc
    refine ⟨by simpa [setBitFold] using hacc, fun j _ => by simp [setBitFold], ?_⟩
    intro i h
    exact absurd h (by simp)
  | cons a t ih =>
    intro k acc hacc
    have hstep : setBitFold g k (a :: t) acc = setBitFold g (k + 1) t (setBit acc k (g k a)) :=
      rfl
    have hacc2 : setBit acc k (g k a) < 2 ^ (k + 1) := setBit_lt_two_pow _ hacc
    obtain ⟨ih1, ih2, ih3⟩ := ih (k + 1) (setBit acc k (g k a)) hacc2
    refine ⟨?_, ?_, ?_⟩
    · have harith : k + 1 + t.length = k + (a :: t).length := by
        simp
        omega
      rw [hstep, ← harith]
      exact ih1
    · intro j hj
      rw [hstep, ih2 j (by omega)]
      exact testBit_setBit_of_lt _ hacc hj
    · intro i h
      cases i with
      | zero =>
        have hres := ih2 k (by omega)
        rw [testBit_setBit_self _ hacc] at hres
        rw [hstep]
        simpa using hres
      | succ j =>
        have hjt : j < t.length := by
          simpa using h
        have hidx : k + (j + 1) = k + 1 + j := by omega
        rw [hstep, hidx, ih3 j hjt]
        rfl

theorem foldl_and_enumFrom_eq_true {α : Type} (g : ℕ → α → Bool) :
    ∀ (l : List α) (k : ℕ) (p : Bool),
      ((List.enumFrom k l).foldl (fun acc ia => acc && g ia.1 ia.2) p = true ↔
        (p = true ∧ ∀ i (h : i < l.length), g (k + i) (l.get ⟨i, h⟩) = true)) := by
  intro l
  induction l with
  | nil =>
    intro k p
    constructor
    · intro h
      exact ⟨h, fun i hi => absurd hi (by simp)⟩
    · intro h
      exact h.1
  | cons a t ih =>
    intro k p
    have hstep : (List.enumFrom k (a :: t)).foldl (fun acc ia => acc && g ia.1 ia.2) p =
        (List.enumFrom (k + 1) t).foldl (fun acc ia => acc && g ia.1 ia.2) (p && g k a) :=
      rfl
    rw [hstep, ih (k + 1) (p && g k a)]
    constructor
    · rintro ⟨hpa, hrest⟩
      rw [Bool.and_eq_true] at hpa
      refine ⟨hpa.1, ?_⟩
      intro i hi
      cases i with
      | zero =>
        simpa using hpa.2
      | succ j =>
        have hjt : j < t.length := by
          simpa using hi
        have hidx : k + (j + 1) = k + 1 + j := by omega
        rw [hidx]
        exact hrest j hjt
    · rintro ⟨hp, hall⟩
      refine ⟨by rw [Bool.and_eq_true]; exact ⟨hp, by simpa using hall 0 (by simp)⟩, ?_⟩
      intro j hj
      have hidx : k + 1 + j = k + (j + 1) := by omega
      rw [hidx]
      exact hall (j + 1) (by simpa using hj)

theorem foldl_and_eq_all {α : Type} (g : α → Bool) :
    ∀ (l : List α) (p : Bool), l.foldl (fun acc x => acc && g x) p = (p && l.all g) := by
  intro l
  induction l with
  | nil =>
    intro p
    simp
  | cons a t ih =>
    intro p
    rw [List.foldl_cons, ih (p && g a), List.all_cons]
    cases p <;> cases g a <;> simp

theorem xor_eq_true_iff_eq_not : ∀ x y : Bool, ((x ^^ y) = true ↔ x = !y) := by
  decide

theorem scalarInvert_mul_cancel {q : ℕ} [Fact q.Prime] {a : ZMod q} (h : a ≠ 0) :
    scalarInvert a * a = 1 := by
  have h1 : a ^ (q - 1) = 1 := ZMod.pow_card_sub_one_eq_one h
  have hq : 2 ≤ q := (Fact.out : q.Prime).two_le
  have h2 : q - 2 + 1 = q - 1 := by omega
  calc scalarInvert a * a = a ^ (q - 2 + 1) := (pow_succ a (q - 2)).symm
  _ = a ^ (q - 1) := by rw [h2]
  _ = 1 := h1

theorem test_universal_eq_false {q : ℕ} (O : Oracles q) (dk : DetectionKey q) (f : Flag q)
    (h : f.u = identityElem q ∨ f.y = 0) : dk.Test O f = false := by
  simp only [DetectionKey.Test, if_pos h]

theorem Test_eq_true_iff {q : ℕ} (O : Oracles q) (dk : DetectionKey q) (f : Flag q)
    (hu : f.u ≠ identityElem q) (hy : f.y ≠ 0) :
    (dk.Test O f = true ↔
      ∀ i (h : i < dk.internal.length),
        hashG3ToBit O f.u (scalarMult (dk.internal.get ⟨i, h⟩) f.u)
            (multiScalarMult [hashGVecToScalar O f.u f.ciphertexts, f.y] [basePoint q, f.u])
          = ! f.ciphertexts.testBit i) := by
  have hcond : ¬(f.u = identityElem q ∨ f.y = 0) := by
    rintro (h | h)
    · exact hu h
    · exact hy h
  have hbody := foldl_and_enumFrom_eq_true
    (fun i x =>
      hashG3ToBit O f.u (scalarMult x f.u)
          (multiScalarMult [hashGVecToScalar O f.u f.ciphertexts, f.y] [basePoint q, f.u])
        ^^ f.ciphertexts.testBit i)
    dk.internal 0 true
  unfold DetectionKey.Test
  rw [if_neg hcond]
  constructor
  · intro h i hi
    have hslot := (hbody.mp h).2 i hi
    simp only [Nat.zero_add] at hslot
    exact (xor_eq_true_iff_eq_not _ _).mp hslot
  · intro h
    apply hbody.mpr
    refine ⟨rfl, ?_⟩
    intro i hi
    simp only [Nat.zero_add]
    exact (xor_eq_true_iff_eq_not _ _).mpr (h i hi)

theorem Test_eq_not_sentinel_and_all {q : ℕ} (O : Oracles q) (dk : DetectionKey q)
    (f : Flag q) :
    dk.Test O f =
      (!decide (f.u = identityElem q ∨ f.y = 0) && (dk.TestSlotBits O f).all id) := by
  by_cases h : f.u = identityElem q ∨ f.y = 0
  · rw [test_universal_eq_false O dk f h, decide_eq_true h]
    rfl
  · have hfold := foldl_and_eq_all
      (fun ix : ℕ × ZMod q =>
        hashG3ToBit O f.u (scalarMult ix.2 f.u)
            (multiScalarMult [hashGVecToScalar O f.u f.ciphertexts, f.y] [basePoint q, f.u])
          ^^ f.ciphertexts.testBit ix.1)
      dk.internal.enum true
    unfold DetectionKey.Test
    rw [if_neg h, decide_eq_false h]
    rw [hfold]
    rw [Bool.not_false, Bool.true_and, Bool.true_and]
    unfold DetectionKey.TestSlotBits
    generalize dk.internal.enum = l
    induction l with
    | nil => rfl
    | cons a t ih => simp only [List.all_cons, List.map_cons, id_eq, ih]

/-! ## The claims -/

/-- Claim C1 (amended): an honestly generated flag matches any detection key
extracted (with 1 ≤ n ≤ γ) from the same secret key, for every outcome of the
random coins such that r ≠ 0 and z ≠ m — equivalently, whenever the produced
flag does not trip Test's universal-tag sentinel.  The excluded coin outcomes
exist but have negligible probability (≈ 2·2⁻²⁵²) over uniform coins. -/
theorem honest_flag_matches {q : ℕ} [Fact q.Prime] (O : Oracles q) (coins : ℕ → ZMod q)
    (gamma n : ℕ) (r z : ZMod q) (h1 : 1 ≤ n) (h2 : n ≤ gamma) (hr : r ≠ 0)
    (hz : z ≠ hashGVecToScalar O (scalarBaseMult r)
        (((NewSecretKey coins gamma).PublicKey.GenerateFlag O r z).ciphertexts)) :
    ((NewSecretKey coins gamma).ExtractDetectionKey n).Test O
      ((NewSecretKey coins gamma).PublicKey.GenerateFlag O r z) = true := by
  have hFu : ((NewSecretKey coins gamma).PublicKey.GenerateFlag O r z).u =
      scalarBaseMult r := rfl
  have hFy : ((NewSecretKey coins gamma).PublicKey.GenerateFlag O r z).y =
      scalarInvert r * (z - hashGVecToScalar O (scalarBaseMult r)
        (((NewSecretKey coins gamma).PublicKey.GenerateFlag O r z).ciphertexts)) := rfl
  have hu : ((NewSecretKey coins gamma).PublicKey.GenerateFlag O r z).u ≠ identityElem q := by
    rw [hFu]
    simpa [scalarBaseMult, basePoint, identityElem] using hr
  have hy : ((NewSecretKey coins gamma).PublicKey.GenerateFlag O r z).y ≠ 0 := by
    rw [hFy]
    apply mul_ne_zero
    · intro h0
      have hc := scalarInvert_mul_cancel hr
      rw [h0, zero_mul] at hc
      exact zero_ne_one hc
    · exact sub_ne_zero_of_ne hz
  rw [Test_eq_true_iff O _ _ hu hy]
  intro i hi
  have hlen : ((NewSecretKey coins gamma).ExtractDetectionKey n).internal.length =
      min n gamma := by
    simp [SecretKey.ExtractDetectionKey, NewSecretKey]
  have hin : i < n := by
    rw [hlen] at hi
    omega
  have hig : i < gamma := by omega
  have hxi : ((NewSecretKey coins gamma).ExtractDetectionKey n).internal.get ⟨i, hi⟩ =
      coins i := by
    simp [SecretKey.ExtractDetectionKey, NewSecretKey, List.get_eq_getElem,
      List.getElem_take', List.getElem_map, List.getElem_range]
  have hplen : (((List.range gamma).map fun j => scalarBaseMult (coins j)) :
      List (ZMod q)).length = gamma := by
    simp
  have hilt : i < (((List.range gamma).map fun j => scalarBaseMult (coins j)) :
      List (ZMod q)).length := by
    omega
  have hC := setBitFold_spec
    (fun _ H => !hashG3ToBit O (scalarBaseMult r) (scalarMult r H) (scalarBaseMult z))
    ((List.range gamma).map fun j => scalarBaseMult (coins j)) 0 0 (by norm_num)
  have hbit := hC.2.2 i hilt
  simp only [Nat.zero_add] at hbit
  have hget : (((List.range gamma).map fun j => scalarBaseMult (coins j)) :
      List (ZMod q)).get ⟨i, hilt⟩ = scalarBaseMult (coins i) := by
    simp [List.get_eq_getElem, List.getElem_map, List.getElem_range]
  rw [hget] at hbit
  have hFc : ((NewSecretKey coins gamma).PublicKey.GenerateFlag O r z).ciphertexts =
      setBitFold
        (fun _ H => !hashG3ToBit O (scalarBaseMult r) (scalarMult r H) (scalarBaseMult z))
        0 ((List.range gamma).map fun j => scalarBaseMult (coins j)) 0 := rfl
  rw [hFu, hxi, hFc, hbit, Bool.not_not]
  have hw : multiScalarMult
      [hashGVecToScalar O (scalarBaseMult r)
        (setBitFold
          (fun _ H => !hashG3ToBit O (scalarBaseMult r) (scalarMult r H) (scalarBaseMult z))
          0 ((List.range gamma).map fun j => scalarBaseMult (coins j)) 0),
       ((NewSecretKey coins gamma).PublicKey.GenerateFlag O r z).y]
      [basePoint q, scalarBaseMult r] = scalarBaseMult z := by
    rw [hFy, hFc]
    generalize hashGVecToScalar O (scalarBaseMult r)
      (setBitFold
        (fun _ H => !hashG3ToBit O (scalarBaseMult r) (scalarMult r H) (scalarBaseMult z))
        0 ((List.range gamma).map fun j => scalarBaseMult (coins j)) 0) = m
    have hcancel := scalarInvert_mul_cancel hr
    simp only [multiScalarMult, List.zipWith_cons_cons, List.zipWith_nil_right,
      List.sum_cons, List.sum_nil, scalarBaseMult, basePoint, mul_one, add_zero]
    linear_combination (z - m) * hcancel
  rw [hw]
  have harg : scalarMult (coins i) (scalarBaseMult r) =
      scalarMult r (scalarBaseMult (coins i)) := by
    simp only [scalarMult, scalarBaseMult, basePoint, mul_one]
    ring
  rw [harg]

/-- Claim C1 (counterexample): the claim quantifies over every outcome of the
random coins, but the coin outcome r = 0 is reachable (FromUniformBytes
reduces 64 uniform bytes modulo the group order, and the all-zero byte string
gives the zero scalar), and on it the honest flag has u = 0·B = identity,
trips Test's universal-tag sentinel, and is rejected: here with γ = n = 1 at
the concrete toy instantiation and coin outcome r = z = 0. -/
theorem honest_flag_zero_r_fails :
    (skOne.ExtractDetectionKey 1).Test oracleA
      ((skOne.PublicKey).GenerateFlag oracleA 0 0) = false := by
  decide

theorem honest_flag_matches_check :
    (1 ≤ 1 ∧ 1 ≤ 1 ∧ ((1 : ZMod 5) ≠ 0) ∧
      ((1 : ZMod 5) ≠ hashGVecToScalar oracleA (scalarBaseMult 1)
        (((NewSecretKey coinsOne 1).PublicKey.GenerateFlag oracleA 1 1).ciphertexts))) ∧
    ((NewSecretKey coinsOne 1).ExtractDetectionKey 1).Test oracleA
      ((NewSecretKey coinsOne 1).PublicKey.GenerateFlag oracleA 1 1) = true :=
  ⟨⟨le_rfl, le_rfl, by decide, by decide⟩,
    honest_flag_matches oracleA coinsOne 1 1 1 1 le_rfl le_rfl (by decide) (by decide)⟩

/-- Claim C2 (amended): for every flag with u not the identity and y nonzero
and every detection key of length n, Test returns true iff for every i < n,
hashG3ToBit(u, xᵢ·u, m·B + y·u) = 1 ⊕ cᵢ with m = hashGVecToScalar(u, c): the
third hash argument on the test side is m·B + y·u (the multi-scalar product
of [m, y] against [B, u] that the code computes), not y·B + m·B. -/
theorem test_acceptance_criterion {q : ℕ} (O : Oracles q) (dk : DetectionKey q) (f : Flag q)
    (hu : f.u ≠ identityElem q) (hy : f.y ≠ 0) :
    (dk.Test O f = true ↔
      ∀ i (h : i < dk.internal.length),
        hashG3ToBit O f.u (scalarMult (dk.internal.get ⟨i, h⟩) f.u)
            (scalarBaseMult (hashGVecToScalar O f.u f.ciphertexts) + scalarMult f.y f.u)
          = ! f.ciphertexts.testBit i) := by
  have hms : multiScalarMult [hashGVecToScalar O f.u f.ciphertexts, f.y] [basePoint q, f.u]
      = scalarBaseMult (hashGVecToScalar O f.u f.ciphertexts) + scalarMult f.y f.u := by
    simp [multiScalarMult, scalarBaseMult, scalarMult, basePoint]
  rw [← hms]
  exact Test_eq_true_iff O dk f hu hy

/-- Claim C2 (counterexample): with a concrete hash oracle, a concrete
one-scalar detection key and the flag (2·B, 1, 0), Test accepts while the
claimed criterion whose third hash argument is y·B + m·B fails, so the
claimed equivalence is false as stated. -/
theorem test_criterion_spec_formula_fails :
    (flagC2.u ≠ identityElem 5 ∧ flagC2.y ≠ 0) ∧
    ¬(dkTwo.Test oracleC flagC2 = true ↔
      ∀ i (h : i < dkTwo.internal.length),
        hashG3ToBit oracleC flagC2.u (scalarMult (dkTwo.internal.get ⟨i, h⟩) flagC2.u)
            (scalarBaseMult flagC2.y +
              scalarBaseMult (hashGVecToScalar oracleC flagC2.u flagC2.ciphertexts))
          = ! flagC2.ciphertexts.testBit i) := by
  refine ⟨⟨by decide, by decide⟩, ?_⟩
  decide

theorem test_acceptance_criterion_check :
    (flagUnit.u ≠ identityElem 5 ∧ flagUnit.y ≠ 0) ∧
    (dkOne.Test oracleB flagUnit = true ↔
      ∀ i (h : i < dkOne.internal.length),
        hashG3ToBit oracleB flagUnit.u (scalarMult (dkOne.internal.get ⟨i, h⟩) flagUnit.u)
            (scalarBaseMult (hashGVecToScalar oracleB flagUnit.u flagUnit.ciphertexts) +
              scalarMult flagUnit.y flagUnit.u)
          = ! flagUnit.ciphertexts.testBit i) :=
  ⟨⟨by decide, by decide⟩,
    test_acceptance_criterion oracleB dkOne flagUnit (by decide) (by decide)⟩

/-- Claim C3 (the code evaluated at a failing input): the packing appends
BitLen-many bytes, not the minimal ⌈BitLen/8⌉ bytes, because the requested
capacity `BitLen()+7/8` parses as `BitLen() + (7/8) = BitLen()`.  At the
bit-vector 0b10 (BitLen 2) the appended bytes are [2, 0] — two bytes with a
trailing zero in the hash input — where the minimal covering packing
(bitLen+7)/8 = 1 is the single byte [2]. -/
theorem packing_appends_bitlen_bytes :
    packBytes 2 = [2, 0] ∧ packBytes 2 ≠ [2] ∧ (bitLen 2 + 7) / 8 = 1 ∧ packCap 2 = 2 := by
  decide

/-- Claim C4 (amended): the byte string fed to SHA3-512 inside
hashGVecToScalar is the packed bytes of c followed by the 32-byte canonical
encoding of u: `u.Encode(byteRepr)` appends the encoding of u to the buffer
of packed bytes it is handed. -/
theorem hashGVec_input_c_first {q : ℕ} (O : Oracles q) (u : ZMod q) (c : ℕ) :
    hashGVecToScalar O u c = hashGVecToScalarCFirst O u c := rfl

/-- Claim C4 (counterexample): with an oracle whose hash-to-scalar
distinguishes the two concatenation orders, hashGVecToScalar differs from the
spec's stated order (encoding of u first, packed bits second) at u = 1·B,
c = 1. -/
theorem hashGVec_input_not_u_first :
    ¬ hashGVecToScalar oracleD 1 1 = hashGVecToScalarUFirst oracleD 1 1 := by
  decide

/-- Claim C5: a flag whose u is the identity element or whose y is the zero
scalar is rejected by Test for every detection key, whatever the bit-vector
c. -/
theorem test_rejects_universal_tags {q : ℕ} (O : Oracles q) (dk : DetectionKey q)
    (f : Flag q) (h : f.u = identityElem q ∨ f.y = 0) : dk.Test O f = false :=
  test_universal_eq_false O dk f h

theorem test_rejects_universal_tags_check :
    (zeroFlag.u = identityElem 5 ∨ zeroFlag.y = 0) ∧
    (onesFlag.u = identityElem 5 ∨ onesFlag.y = 0) ∧
    dkTwo.Test oracleB zeroFlag = false ∧ dkTwo.Test oracleB onesFlag = false :=
  ⟨Or.inl rfl, Or.inl rfl,
    test_rejects_universal_tags oracleB dkTwo zeroFlag (Or.inl rfl),
    test_rejects_universal_tags oracleB dkTwo onesFlag (Or.inl rfl)⟩

/-- Claim C6: for n ≤ m within the secret key's length, a flag accepted by
the length-m detection key is accepted by the length-n one: the longer key
ANDs a superset of the same slot bits. -/
theorem longer_key_test_implies_shorter {q : ℕ} (O : Oracles q) (key : SecretKey q)
    (n m : ℕ) (f : Flag q) (hnm : n ≤ m) (hm : m ≤ key.sk.length)
    (h : (key.ExtractDetectionKey m).Test O f = true) :
    (key.ExtractDetectionKey n).Test O f = true := by
  by_cases hc : f.u = identityElem q ∨ f.y = 0
  · rw [test_universal_eq_false O _ f hc] at h
    exact absurd h (by simp)
  · push_neg at hc
    obtain ⟨hu, hy⟩ := hc
    rw [Test_eq_true_iff O _ f hu hy] at h ⊢
    intro i hi
    have hin : i < n := by
      have hlen := hi
      simp [SecretKey.ExtractDetectionKey, List.length_take] at hlen
      omega
    have him : i < (key.ExtractDetectionKey m).internal.length := by
      simp [SecretKey.ExtractDetectionKey, List.length_take]
      omega
    have hgets : (key.ExtractDetectionKey n).internal.get ⟨i, hi⟩ =
        (key.ExtractDetectionKey m).internal.get ⟨i, him⟩ := by
      simp [SecretKey.ExtractDetectionKey, List.get_eq_getElem, List.getElem_take']
    rw [hgets]
    exact h i him

theorem longer_key_test_implies_shorter_check :
    (1 ≤ 2 ∧ 2 ≤ skTwo.sk.length ∧ (skTwo.ExtractDetectionKey 2).Test oracleB flagUnit = true) ∧
    (skTwo.ExtractDetectionKey 1).Test oracleB flagUnit = true :=
  ⟨⟨by decide, by decide, by decide⟩,
    longer_key_test_implies_shorter oracleB skTwo 1 2 flagUnit (by decide) (by decide)
      (by decide)⟩

/-- Claim C7 (amended): a negative γ and an n outside [0, γ] are rejected by
the Go runtime (the negative `make` length and the out-of-range index panic,
modelled as `none`); but γ = 0 — although the claim's bound γ < 1 covers it —
is NOT rejected: NewSecretKey(0) completes normally with an empty key. -/
theorem parameter_boundary_behaviour {q : ℕ} (coins : ℕ → ZMod q) (key : SecretKey q) :
    (∀ gamma : ℤ, gamma < 0 → NewSecretKeyChecked coins gamma = none) ∧
    NewSecretKeyChecked coins 0 = some (NewSecretKey coins 0) ∧
    (∀ n : ℤ, n < 0 ∨ (key.sk.length : ℤ) < n → key.ExtractDetectionKeyChecked n = none) := by
  refine ⟨?_, ?_, ?_⟩
  · intro g hg
    simp [NewSecretKeyChecked, hg]
  · simp [NewSecretKeyChecked]
  · intro n hn
    unfold SecretKey.ExtractDetectionKeyChecked
    rw [if_pos hn]

/-- Claim C7 (counterexample): NewSecretKey(0), with γ = 0 < 1, completes
normally and returns a key rather than signalling an error. -/
theorem newSecretKey_zero_completes : (NewSecretKeyChecked coinsOne 0).isSome = true := by
  decide

theorem parameter_boundary_behaviour_check :
    ((-1 : ℤ) < 0 ∧ NewSecretKeyChecked coinsOne (-1) = none) ∧
    (((3 : ℤ) < 0 ∨ (skTwo.sk.length : ℤ) < 3) ∧ skTwo.ExtractDetectionKeyChecked 3 = none) ∧
    NewSecretKeyChecked coinsOne 0 = some (NewSecretKey coinsOne 0) :=
  ⟨⟨by decide, (parameter_boundary_behaviour coinsOne skTwo).1 (-1) (by decide)⟩,
    ⟨Or.inr (by decide),
      (parameter_boundary_behaviour coinsOne skTwo).2.2 3 (Or.inr (by decide))⟩,
    (parameter_boundary_behaviour coinsOne skTwo).2.1⟩

/-- Claim C8: with a detection key longer than the stored bit-length of c,
Test is total: every bit of c at an index at or beyond bitLen(c) reads as 0,
the slot list still has one entry per detection-key scalar, and each slot
beyond the stored bits is the bare hash bit (XOR with 0). -/
theorem test_short_bitvector_total {q : ℕ} (O : Oracles q) (dk : DetectionKey q) (f : Flag q)
    (hshort : bitLen f.ciphertexts < dk.internal.length) :
    (dk.TestSlotBits O f).length = dk.internal.length ∧
    (∀ i, bitLen f.ciphertexts ≤ i → f.ciphertexts.testBit i = false) ∧
    (∀ i (h1 : i < (dk.TestSlotBits O f).length) (h2 : i < dk.internal.length),
      bitLen f.ciphertexts ≤ i →
        (dk.TestSlotBits O f).get ⟨i, h1⟩ =
          hashG3ToBit O f.u (scalarMult (dk.internal.get ⟨i, h2⟩) f.u)
            (multiScalarMult [hashGVecToScalar O f.u f.ciphertexts, f.y]
              [basePoint q, f.u])) := by
  refine ⟨by simp [DetectionKey.TestSlotBits], fun i hi => testBit_eq_false_of_bitLen_le hi, ?_⟩
  intro i h1 h2 hge
  have hbit : f.ciphertexts.testBit i = false := testBit_eq_false_of_bitLen_le hge
  simp [DetectionKey.TestSlotBits, List.get_eq_getElem, List.getElem_map, List.getElem_enum,
    hbit]

theorem test_short_bitvector_total_check :
    (bitLen flagUnit.ciphertexts < dkOne.internal.length) ∧
    (dkOne.TestSlotBits oracleB flagUnit).length = dkOne.internal.length :=
  ⟨by decide, (test_short_bitvector_total oracleB dkOne flagUnit (by decide)).1⟩

/-- Claim C9: the slot loop of Test has no early exit: for every detection key
and flag the per-slot bit list has exactly one entry per key scalar — whether
or not some slot fails — and once past the universal-tag check the result is
the AND of all of them. -/
theorem test_processes_every_slot {q : ℕ} (O : Oracles q) (dk : DetectionKey q)
    (f : Flag q) :
    (dk.TestSlotBits O f).length = dk.internal.length ∧
    dk.Test O f =
      (!decide (f.u = identityElem q ∨ f.y = 0) && (dk.TestSlotBits O f).all id) :=
  ⟨by simp [DetectionKey.TestSlotBits], Test_eq_not_sentinel_and_all O dk f⟩

/-- Claim C10: a detection key of length 0 accepts every flag that passes the
universal-tag check: with no slots the AND-accumulator stays 1. -/
theorem empty_detection_key_matches_all {q : ℕ} (O : Oracles q) (key : SecretKey q)
    (f : Flag q) (hu : f.u ≠ identityElem q) (hy : f.y ≠ 0) :
    (key.ExtractDetectionKey 0).Test O f = true := by
  have hc : ¬(f.u = identityElem q ∨ f.y = 0) := by
    rintro (h | h)
    · exact hu h
    · exact hy h
  unfold SecretKey.ExtractDetectionKey DetectionKey.Test
  rw [if_neg hc]
  rfl

theorem empty_detection_key_matches_all_check :
    (flagUnit.u ≠ identityElem 5 ∧ flagUnit.y ≠ 0) ∧
    (skOne.ExtractDetectionKey 0).Test oracleB flagUnit = true :=
  ⟨⟨by decide, by decide⟩,
    empty_detection_key_matches_all oracleB skOne flagUnit (by decide) (by decide)⟩

end Gophertags
